import Mathlib

/-!
Verification development for the deployer-training generator script
(`scripts/generate_training.py`).

The script is embedded shallowly:

* Python strings are lists of characters (`Str`).
* The filesystem subtree below the repository root is an inductive tree
  (`FSEntry`); a file whose read or decode raises is represented with
  `content = none`.
* `os.walk` with top-down directory pruning is `walkTree` (the files of a
  directory are collected before its surviving subdirectories are entered,
  in listing order).
* The generation backend is an oracle `Str → Except Str Str`: `.error e`
  models a raised exception, `.ok t` a response whose `.text` is `t`
  (`None` is identified with the empty text, both are falsy in Python).
* `sys.exit(1)` is modelled by returning `.error`: no document is produced
  on that branch.
* Unicode-only details are simplified to ASCII where the script only ever
  meets ASCII data: `str.lower`, the whitespace class of `str.strip` and
  of the regex `\s`, and the rarer line terminators of `str.splitlines`
  (`\n`, `\r\n` and `\r` are supported).
-/

/-- Python strings are modelled as lists of characters. -/
abbrev Str := List Char

/-- Whitespace recognised by `str.strip()` and the regex class `\s`
(ASCII range). -/
def pyWhitespace (c : Char) : Bool :=
  c = ' ' || c = '\t' || c = '\n' || c = '\r' || c = '\x0b' || c = '\x0c'

/-- Python `s.strip()`: remove leading and trailing whitespace. -/
def pyStrip (s : Str) : Str :=
  ((s.dropWhile pyWhitespace).reverse.dropWhile pyWhitespace).reverse

/-- Python `s.strip(c)` for a one-character set: remove leading and trailing
copies of `c`. -/
def pyStripChar (c : Char) (s : Str) : Str :=
  ((s.dropWhile (· = c)).reverse.dropWhile (· = c)).reverse

/-- Python `s.lower()` (ASCII). -/
def pyLower (s : Str) : Str := s.map Char.toLower

/-- Helper of `pySplitlines`; `acc` holds the current line reversed. -/
def splitlinesAux : Str → Str → List Str
  | acc, [] => if acc.isEmpty then [] else [acc.reverse]
  | acc, '\r' :: '\n' :: rest => acc.reverse :: splitlinesAux [] rest
  | acc, '\n' :: rest => acc.reverse :: splitlinesAux [] rest
  | acc, '\r' :: rest => acc.reverse :: splitlinesAux [] rest
  | acc, c :: rest => splitlinesAux (c :: acc) rest

/-- Python `s.splitlines()` for the common terminators `\n`, `\r\n`, `\r`:
no trailing empty line is produced for a trailing terminator. -/
def pySplitlines (s : Str) : List Str := splitlinesAux [] s

/-- Python substring test `pat in s`. -/
def isSubstr (pat : Str) : Str → Bool
  | [] => pat.isEmpty
  | c :: rest => List.isPrefixOf pat (c :: rest) || isSubstr pat rest

/-- Python `sep.join(parts)`. -/
def pyJoin (sep : Str) : List Str → Str
  | [] => []
  | [x] => x
  | x :: y :: xs => x ++ sep ++ pyJoin sep (y :: xs)

/-! Configuration constants of the script (lines 27-50). -/

def PRIMARY_MODEL : Str := "gemini-3-pro-preview".data

def FALLBACK_MODEL : Str := "gemini-2.0-flash-exp".data

/-- File extensions to ingest (line 31). -/
def TEXT_EXTENSIONS : List Str :=
  [".py".data, ".js".data, ".ts".data, ".jsx".data, ".tsx".data, ".go".data,
   ".rs".data, ".java".data, ".kt".data, ".scala".data,
   ".c".data, ".cpp".data, ".h".data, ".hpp".data, ".cs".data, ".swift".data,
   ".rb".data, ".php".data, ".pl".data, ".lua".data,
   ".sh".data, ".bash".data, ".zsh".data, ".ps1".data, ".bat".data, ".cmd".data,
   ".html".data, ".htm".data, ".css".data, ".scss".data, ".sass".data, ".less".data,
   ".json".data, ".yaml".data, ".yml".data, ".toml".data, ".ini".data, ".cfg".data,
   ".conf".data, ".xml".data, ".xsl".data, ".xslt".data,
   ".md".data, ".markdown".data, ".rst".data, ".txt".data, ".adoc".data,
   ".sql".data, ".graphql".data, ".gql".data,
   ".dockerfile".data, ".makefile".data, ".cmake".data]

/-- Files to always exclude for security (line 49). -/
def EXCLUDED_FILES : List Str :=
  [".env".data, ".env.local".data, ".env.production".data, ".env.development".data]

/-- Wildcard patterns declared at line 50; the script never reads this
constant again. -/
def EXCLUDED_PATTERNS : List Str :=
  ["*.key".data, "*.pem".data, "*.secret".data, "*_key.txt".data]

/-- Directory names merged into the pattern set unconditionally
(line 129). -/
def BUILTIN_IGNORED_DIRS : List Str :=
  ["node_modules".data, ".git".data, "__pycache__".data, ".venv".data,
   "venv".data, "dist".data, "build".data]

/-! Paths.  A path below the repository root is its nonempty list of name
components; `pathStr` is `str(relative_path).replace(chr(92), "/")`, the
forward-slash joined form, and `pathName` is `path.name`. -/

def pathStr (rel : List Str) : Str := pyJoin ['/'] rel

def pathName (rel : List Str) : Str := (rel.getLast?).getD []

/-- Inner loop of `is_ignored` (lines 113-118): simplified `.gitignore`
matching of one path against every pattern. -/
def gitignoreHit (patterns : List Str) (path_str name : Str) : Bool :=
  patterns.any fun pattern =>
    let pc := pyStripChar '/' pattern
    (isSubstr pc path_str || name == pc) ||
    (List.isSuffixOf ['/'] pc && List.isPrefixOf pc path_str)

/-- Embeds `is_ignored` (lines 103-120): the hard-coded sensitive-file set
is consulted first, then the gitignore patterns. -/
def is_ignored (patterns : List Str) (rel : List Str) : Bool :=
  decide (pathName rel ∈ EXCLUDED_FILES) ||
  gitignoreHit patterns (pathStr rel) (pathName rel)

/-- Index of the last dot of a file name, if any (Python `name.rfind`). -/
def lastDotIdx (name : Str) : Option Nat :=
  match name.reverse.findIdx? (· = '.') with
  | none => none
  | some j => some (name.length - 1 - j)

/-- Python `PurePath.suffix`: the part of the name from its last dot,
empty when the dot is absent, leading or trailing. -/
def pySuffix (name : Str) : Str :=
  match lastDotIdx name with
  | none => []
  | some i => if 0 < i ∧ i < name.length - 1 then name.drop i else []

/-- Extensionless file names recognised at line 144. -/
def EXT_NAMES : List Str := ["dockerfile".data, "makefile".data]

/-- Extension/name allowlist test of line 144: a file survives when its
lower-cased suffix is a text extension or its lower-cased bare name is a
recognised extensionless name. -/
def extAllowed (name : Str) : Bool :=
  decide (pyLower (pySuffix name) ∈ TEXT_EXTENSIONS) ||
  decide (pyLower name ∈ EXT_NAMES)

/-- Record collected per included file (lines 150-153). -/
structure FileRecord where
  path : Str
  content : Str
deriving DecidableEq, Repr

/-- Filesystem subtree below the repository root.  A file that cannot be
opened or decoded as UTF-8 text carries `content = none`. -/
inductive FSEntry where
  | file (name : Str) (content : Option Str)
  | dir (name : Str) (children : List FSEntry)
deriving Repr

mutual
/-- Well-formedness of one filesystem entry: its name carries no path
separator (true of every real directory listing). -/
def validEntry : FSEntry → Bool
  | .file n _ => !decide ('/' ∈ n)
  | .dir n ch => !decide ('/' ∈ n) && validEntries ch
/-- Well-formedness of a listing, entry by entry. -/
def validEntries : List FSEntry → Bool
  | [] => true
  | e :: rest => validEntry e && validEntries rest
end

/-- Inner file loop of `scan_codebase` (lines 137-155) over one directory
listing: a file is skipped when `is_ignored` holds, when the extension
test of line 144 fails, or when reading raises (`content = none`);
otherwise a `FileRecord` is appended. -/
def walkFiles (patterns : List Str) (base : List Str) : List FSEntry → List FileRecord
  | [] => []
  | .file name content :: rest =>
      (if !is_ignored patterns (base ++ [name]) && extAllowed name then
         (match content with
          | some text => [⟨pathStr (base ++ [name]), text⟩]
          | none => [])
       else []) ++ walkFiles patterns base rest
  | .dir _ _ :: rest => walkFiles patterns base rest

/-- Recursion of `os.walk` with the `dirs[:]` pruning of line 135: a
subdirectory failing `is_ignored` is pruned before being entered, so the
subtree of a pruned directory contributes nothing and is never read. -/
def walkDirs (patterns : List Str) (base : List Str) : List FSEntry → List FileRecord
  | [] => []
  | .file _ _ :: rest => walkDirs patterns base rest
  | .dir name ch :: rest =>
      (if is_ignored patterns (base ++ [name]) then []
       else walkFiles patterns (base ++ [name]) ch ++
            walkDirs patterns (base ++ [name]) ch) ++
      walkDirs patterns base rest

/-- One `os.walk` step: the files of the current directory, then the
records of its surviving subdirectories, in listing order. -/
def walkTree (patterns : List Str) (base : List Str) (es : List FSEntry) : List FileRecord :=
  walkFiles patterns base es ++ walkDirs patterns base es

/-- Embeds `load_gitignore_patterns` (lines 88-100): `content` is the text
of the root `.gitignore`, `none` when the file is absent or unreadable;
each stripped, nonempty, non-comment line becomes a pattern. -/
def load_gitignore_patterns (content : Option Str) : List Str :=
  match content with
  | none => []
  | some text =>
      (pySplitlines text).filterMap fun line =>
        let l := pyStrip line
        if !l.isEmpty && !(List.isPrefixOf ['#'] l) then some l else none

/-- Pattern set used by one scan: the `.gitignore` lines plus the built-in
directory names (lines 126-129); `set.update` order is irrelevant because
matching is an existential over the set. -/
def scanPatterns (gitignore : Option Str) : List Str :=
  load_gitignore_patterns gitignore ++ BUILTIN_IGNORED_DIRS

/-- Embeds `scan_codebase` (lines 123-157) applied to the subtree `root`
of the repository root directory. -/
def scan_codebase (gitignore : Option Str) (root : List FSEntry) : List FileRecord :=
  walkTree (scanPatterns gitignore) [] root

/-- Copy of a listing with every unreadable file removed, recursively. -/
def pruneUnreadable : List FSEntry → List FSEntry
  | [] => []
  | .file _ none :: rest => pruneUnreadable rest
  | .file n (some c) :: rest => .file n (some c) :: pruneUnreadable rest
  | .dir n ch :: rest => .dir n (pruneUnreadable ch) :: pruneUnreadable rest

/-! Context assembly. -/

/-- Leading text of every delimiter line emitted at line 164. -/
def FILE_MARK : Str := "--- FILE: ".data

/-- One part of the context: the f-string of line 164,
`--- FILE: {path} ---`, a newline, the content, a newline. -/
def filePart (r : FileRecord) : Str :=
  FILE_MARK ++ r.path ++ " ---".data ++ '\n' :: (r.content ++ ['\n'])

/-- Embeds `build_context` (lines 160-165): the parts joined by one
newline. -/
def build_context (files_data : List FileRecord) : Str :=
  pyJoin ['\n'] (files_data.map filePart)

/-- Tail of the blob after one record: empty for the last record, else a
separator newline followed by the rest of the blob. -/
def bcE (t : List FileRecord) : Str :=
  if t.isEmpty then [] else '\n' :: build_context t

/-- Marker whose absence from every content makes the context splittable
again: a newline directly followed by a delimiter line opening. -/
def contextSep : Str := '\n' :: FILE_MARK

/-- Side condition under which assembly is lossless: the path carries no
newline and the content never contains a newline followed by the
delimiter opening. -/
def okRecord (r : FileRecord) : Bool :=
  !decide ('\n' ∈ r.path) && !(isSubstr contextSep r.content)

/-! Generation orchestration. -/

/-- Candidate list of line 255; Python truthiness makes an empty explicit
model name fall back to the default pair. -/
def modelsToTry (model_name : Option Str) : List Str :=
  match model_name with
  | some m => if m.isEmpty then [PRIMARY_MODEL, FALLBACK_MODEL] else [m]
  | none => [PRIMARY_MODEL, FALLBACK_MODEL]

/-- Fallback loop of lines 258-271 over the remaining candidates, with the
`last_exception` accumulator.  The oracle stands for one
`client.models.generate_content` call; the pair returned is the list of
models actually requested, in order, and the outcome (`.error last`
models the `sys.exit(1)` of line 276 reached with `last_exception`). -/
def genAttempts (oracle : Str → Except Str Str) :
    List Str → Option Str → List Str × Except (Option Str) Str
  | [], last => ([], .error last)
  | m :: rest, last =>
      match oracle m with
      | .ok t =>
          if t.isEmpty then
            let r := genAttempts oracle rest last
            (m :: r.1, r.2)
          else ([m], .ok (pyStrip t))
      | .error e =>
          let r := genAttempts oracle rest (some e)
          (m :: r.1, r.2)

/-- Embeds `generate_documentation` (lines 237-276) downstream of the
credential lookup: try the candidates in order, return the first stripped
non-empty response, or exit fatally. -/
def generate_documentation (oracle : Str → Except Str Str) (model_name : Option Str) :
    List Str × Except (Option Str) Str :=
  genAttempts oracle (modelsToTry model_name) none

/-- Last exception captured while walking a candidate list (mirror of the
`last_exception` variable when no candidate succeeds). -/
def lastErr (oracle : Str → Except Str Str) : List Str → Option Str → Option Str
  | [], last => last
  | m :: rest, last =>
      match oracle m with
      | .error e => lastErr oracle rest (some e)
      | .ok _ => lastErr oracle rest last

/-! Credential resolution. -/

/-- Name of the credential variable. -/
def KEY_NAME : Str := "GEMINI_API_KEY".data

/-- Quote characters of the key regex. -/
def isQuote (c : Char) : Bool := c = '"' || c = '\''

/-- Semantics of the regex of line 65 applied to one stripped line.
`none`: no match.  `some (some k)`: a match whose extracted key is the
string `k`.  `some none`: the quoted alternative matched with an empty
group, so `group(1) or group(2)` is Python `None` and the assignment
`os.environ[...] = None` raises `TypeError`, aborting the file. -/
def matchKeyLine (line : Str) : Option (Option Str) :=
  if List.isPrefixOf KEY_NAME line then
    match (line.drop KEY_NAME.length).dropWhile pyWhitespace with
    | '=' :: r2 =>
        let v := r2.dropWhile pyWhitespace
        if 2 ≤ v.length ∧ isQuote (v.headD ' ') = true ∧ isQuote (v.getLastD ' ') = true then
          let g1 := (v.drop 1).dropLast
          some (if g1.isEmpty then none else some g1)
        else some (some v)
    | _ => none
  else none

/-- Line loop of `load_env_file` (lines 61-69) over one file: skip blank
and comment lines; at the first regex match either yield the key or, on
the `TypeError` path, abort the whole file (lines 70-71). -/
def scanEnvLines : List Str → Option Str
  | [] => none
  | line :: rest =>
      let l := pyStrip line
      if l.isEmpty || List.isPrefixOf ['#'] l then scanEnvLines rest
      else
        match matchKeyLine l with
        | none => scanEnvLines rest
        | some none => none
        | some (some k) => some k

/-- Directory loop of `load_env_file` (lines 56-74).  `chain` lists, from
the script's own directory upward ending at the filesystem root, the text
of each directory's `.env` file (`none`: absent or unreadable).  The
`fuel` mirrors `range(6)`; running past the last element mirrors the
`parent == current` break. -/
def loadLoop : Nat → List (Option Str) → Option Str
  | 0, _ => none
  | _ + 1, [] => none
  | fuel + 1, c :: rest =>
      match c.bind (fun content => scanEnvLines (pySplitlines content)) with
      | some k => some k
      | none => if rest.isEmpty then none else loadLoop fuel rest

/-- Embeds `load_env_file` (lines 53-74): the value it would store into
`os.environ`, if any. -/
def load_env_file (chain : List (Option Str)) : Option Str := loadLoop 6 chain

/-- Truthiness of `os.environ.get(KEY)`: present and non-empty. -/
def envTruthy : Option Str → Bool
  | none => false
  | some v => !v.isEmpty

/-- Embeds `get_api_key` (lines 77-85).  `env` is the initial
`os.environ` value of the key; `.error ()` models the user-facing
message plus `sys.exit(1)`. -/
def get_api_key (env : Option Str) (chain : List (Option Str)) : Except Unit Str :=
  let env1 :=
    if envTruthy env then env
    else
      match load_env_file chain with
      | some k => some k
      | none => env
  match env1 with
  | some k => if k.isEmpty then .error () else .ok k
  | none => .error ()

/-- Concrete oracle for the fallback scenario: the primary model raises,
the fallback model answers with surrounding whitespace. -/
def oracleStripDemo : Str → Except Str Str :=
  fun m => if m = PRIMARY_MODEL then .error "boom".data else .ok " hi ".data

/-! Bridging lemmas between the executable Bool tests and their
propositional forms. -/

theorem isPrefixOf_iff_pfx {α : Type} [DecidableEq α] (l1 l2 : List α) :
    List.isPrefixOf l1 l2 = true ↔ l1 <+: l2 := by
  induction l1 generalizing l2 with
  | nil => simp [List.isPrefixOf]
  | cons a t ih =>
    cases l2 with
    | nil => simp [List.isPrefixOf]
    | cons b t2 => simp [List.isPrefixOf, List.cons_prefix_cons, ih]

theorem isSuffixOf_iff_sfx {α : Type} [DecidableEq α] (l1 l2 : List α) :
    List.isSuffixOf l1 l2 = true ↔ l1 <:+ l2 := by
  simp [List.isSuffixOf, isPrefixOf_iff_pfx, List.reverse_prefix]

theorem isSubstr_contains_iff (pat s : Str) : isSubstr pat s = true ↔ pat <:+: s := by
  induction s with
  | nil => simp [isSubstr, List.isEmpty_iff]
  | cons c rest ih => simp [isSubstr, List.infix_cons_iff, isPrefixOf_iff_pfx, ih]

/-! Path-string reasoning: a string-level directory boundary recovers a
component-level boundary when no component carries a separator. -/

theorem slash_free_cancel (a b u v : Str) (ha : '/' ∉ a) (hb : '/' ∉ b)
    (h : (a ++ '/' :: u) <+: (b ++ '/' :: v)) : a = b ∧ u <+: v := by
  induction a generalizing b with
  | nil =>
    cases b with
    | nil => simpa [List.cons_prefix_cons] using h
    | cons c b2 =>
      simp only [List.nil_append, List.cons_append, List.cons_prefix_cons] at h
      exact absurd (h.1 ▸ List.mem_cons_self c b2) hb
  | cons c a2 ih =>
    cases b with
    | nil =>
      simp only [List.cons_append, List.nil_append, List.cons_prefix_cons] at h
      exact absurd (h.1 ▸ List.mem_cons_self c a2) ha
    | cons c2 b2 =>
      simp only [List.cons_append, List.cons_prefix_cons] at h
      have ha2 : '/' ∉ a2 := fun hm => ha (List.mem_cons_of_mem c hm)
      have hb2 : '/' ∉ b2 := fun hm => hb (List.mem_cons_of_mem c2 hm)
      obtain ⟨hab, hu⟩ := ih b2 ha2 hb2 h.2
      exact ⟨by rw [h.1, hab], hu⟩

theorem pathStr_boundary_to_comps (rp l : List Str)
    (hrp : ∀ c ∈ rp, '/' ∉ c) (hl : ∀ c ∈ l, '/' ∉ c)
    (h : (pathStr rp ++ ['/']) <+: pathStr l) : rp <+: l := by
  induction rp generalizing l with
  | nil => exact List.nil_prefix
  | cons r rs ih =>
    cases l with
    | nil =>
      obtain ⟨t, ht⟩ := h
      simp [pathStr, pyJoin] at ht
    | cons x xs =>
      have hr : '/' ∉ r := hrp r (List.mem_cons_self r rs)
      have hx : '/' ∉ x := hl x (List.mem_cons_self x xs)
      have hrs : ∀ c ∈ rs, '/' ∉ c := fun c hc => hrp c (List.mem_cons_of_mem r hc)
      have hxs : ∀ c ∈ xs, '/' ∉ c := fun c hc => hl c (List.mem_cons_of_mem x hc)
      cases rs with
      | nil =>
        cases xs with
        | nil =>
          obtain ⟨t, ht⟩ := h
          simp only [pathStr, pyJoin, List.append_assoc] at ht
          exact absurd (ht ▸ List.mem_append_right r
            (List.mem_cons_self '/' t)) hx
        | cons x2 xs2 =>
          have hb : (r ++ '/' :: ([] : Str)) <+: (x ++ '/' :: pathStr (x2 :: xs2)) := by
            simpa [pathStr, pyJoin] using h
          obtain ⟨hrx, _⟩ := slash_free_cancel r x [] (pathStr (x2 :: xs2)) hr hx hb
          rw [hrx]
          exact List.cons_prefix_cons.mpr ⟨rfl, List.nil_prefix⟩
      | cons r2 rs2 =>
        cases xs with
        | nil =>
          obtain ⟨t, ht⟩ := h
          have hx2 : '/' ∈ pathStr [x] := by
            rw [← ht]
            simp [pathStr, pyJoin]
          simp [pathStr, pyJoin] at hx2
          exact absurd hx2 hx
        | cons x2 xs2 =>
          have hb : (r ++ '/' :: (pathStr (r2 :: rs2) ++ ['/'])) <+:
              (x ++ '/' :: pathStr (x2 :: xs2)) := by
            simpa [pathStr, pyJoin, List.append_assoc] using h
          obtain ⟨hrx, hrest⟩ :=
            slash_free_cancel r x (pathStr (r2 :: rs2) ++ ['/'])
              (pathStr (x2 :: xs2)) hr hx hb
          have hsub := ih (x2 :: xs2) hrs hxs hrest
          rw [hrx]
          exact List.cons_prefix_cons.mpr ⟨rfl, hsub⟩

/-! Shape of every record produced by the scanner walk. -/

theorem singleton_pfx_eq {α : Type} (q : List α) (a : α)
    (hne : q ≠ []) (h : q <+: [a]) : q = [a] := by
  obtain ⟨t, ht⟩ := h
  cases q with
  | nil => exact absurd rfl hne
  | cons b q2 =>
    simp only [List.cons_append, List.cons.injEq] at ht
    obtain ⟨hb, ht2⟩ := ht
    obtain ⟨h1, h2⟩ := List.append_eq_nil.mp ht2
    simp [hb, h1]

theorem walkFiles_mem (patterns base : List Str) (es : List FSEntry) :
    ∀ r ∈ walkFiles patterns base es,
      ∃ name, r.path = pathStr (base ++ [name]) ∧ extAllowed name = true ∧
        is_ignored patterns (base ++ [name]) = false ∧
        (validEntries es = true → '/' ∉ name) := by
  induction es with
  | nil => intro r hr; simp [walkFiles] at hr
  | cons e rest ih =>
    intro r hr
    cases e with
    | file name content =>
      simp only [walkFiles, List.mem_append] at hr
      rcases hr with hr | hr
      · split at hr
        case isTrue hkeep =>
          simp only [Bool.and_eq_true, Bool.not_eq_true'] at hkeep
          obtain ⟨hig, hext⟩ := hkeep
          cases content with
          | some text =>
            simp only [List.mem_singleton] at hr
            subst hr
            refine ⟨name, rfl, hext, hig, fun hv => ?_⟩
            simp [validEntries, validEntry] at hv
            exact hv.1
          | none => simp at hr
        case isFalse => simp at hr
      · obtain ⟨nm, h1, h2, h3, h4⟩ := ih r hr
        refine ⟨nm, h1, h2, h3, fun hv => h4 ?_⟩
        simp [validEntries] at hv
        exact hv.2
    | dir dn ch =>
      simp only [walkFiles] at hr
      obtain ⟨nm, h1, h2, h3, h4⟩ := ih r hr
      refine ⟨nm, h1, h2, h3, fun hv => h4 ?_⟩
      simp [validEntries] at hv
      exact hv.2


theorem record_shape_lift (patterns base2 : List Str) (nm : Str) (ds : List Str)
    (name2 : Str) (r : FileRecord)
    (hig : is_ignored patterns (base2 ++ [nm]) = false)
    (h1 : r.path = pathStr ((base2 ++ [nm]) ++ (ds ++ [name2])))
    (h3 : ∀ q, q ≠ [] → q <+: ds ++ [name2] →
      is_ignored patterns ((base2 ++ [nm]) ++ q) = false) :
    r.path = pathStr (base2 ++ ((nm :: ds) ++ [name2])) ∧
    (∀ q, q ≠ [] → q <+: (nm :: ds) ++ [name2] →
      is_ignored patterns (base2 ++ q) = false) := by
  constructor
  · simpa using h1
  · intro q hq hqp
    cases q with
    | nil => exact absurd rfl hq
    | cons qh qt =>
      simp only [List.cons_append, List.cons_prefix_cons] at hqp
      obtain ⟨hqh, hqt⟩ := hqp
      subst hqh
      by_cases hqt0 : qt = []
      · subst hqt0
        simpa using hig
      · have := h3 qt hqt0 hqt
        simpa using this

theorem walkDirs_mem (patterns base : List Str) (es : List FSEntry) :
    ∀ r ∈ walkDirs patterns base es,
      ∃ ds name, r.path = pathStr (base ++ (ds ++ [name])) ∧ extAllowed name = true ∧
        (∀ q, q ≠ [] → q <+: ds ++ [name] → is_ignored patterns (base ++ q) = false) ∧
        (validEntries es = true → ∀ c ∈ ds ++ [name], '/' ∉ c) := by
  induction base, es using walkDirs.induct patterns with
  | case1 base2 => intro r hr; simp [walkDirs] at hr
  | case2 base2 nm ct rest ih =>
    intro r hr
    simp only [walkDirs] at hr
    obtain ⟨ds, name2, h1, h2, h3, h4⟩ := ih r hr
    refine ⟨ds, name2, h1, h2, h3, fun hv => h4 ?_⟩
    simp [validEntries] at hv
    exact hv.2
  | case3 base2 nm ch rest ih1 ih2 =>
    intro r hr
    simp only [walkDirs, List.mem_append] at hr
    rcases hr with hr | hr
    · split at hr
      case isTrue => simp at hr
      case isFalse hig =>
        simp only [Bool.not_eq_true] at hig
        simp only [List.mem_append] at hr
        have hvch : validEntries (FSEntry.dir nm ch :: rest) = true →
            ('/' ∉ nm) ∧ validEntries ch = true := by
          intro hv
          simp [validEntries, validEntry] at hv
          exact ⟨hv.1.1, hv.1.2⟩
        rcases hr with hr | hr
        · obtain ⟨name2, h1, h2, h3, h4⟩ := walkFiles_mem patterns (base2 ++ [nm]) ch r hr
          have h3x : ∀ q, q ≠ [] → q <+: ([] : List Str) ++ [name2] →
              is_ignored patterns ((base2 ++ [nm]) ++ q) = false := by
            intro q hq hqp
            rw [singleton_pfx_eq q name2 hq (by simpa using hqp)]
            exact h3
          obtain ⟨g1, g3⟩ := record_shape_lift patterns base2 nm [] name2 r hig
            (by simpa using h1) h3x
          refine ⟨[nm], name2, by simpa using g1, h2, by simpa using g3, fun hv => ?_⟩
          obtain ⟨hnm, hch⟩ := hvch hv
          intro c hc
          rcases List.mem_append.mp hc with hc | hc
          · rw [List.mem_singleton.mp hc]; exact hnm
          · rw [List.mem_singleton.mp hc]; exact h4 hch
        · obtain ⟨ds, name2, h1, h2, h3, h4⟩ := ih1 r hr
          obtain ⟨g1, g3⟩ := record_shape_lift patterns base2 nm ds name2 r hig h1 h3
          refine ⟨nm :: ds, name2, g1, h2, g3, fun hv => ?_⟩
          obtain ⟨hnm, hch⟩ := hvch hv
          intro c hc
          simp only [List.cons_append, List.mem_cons] at hc
          rcases hc with hc | hc
          · rw [hc]; exact hnm
          · exact h4 hch c hc
    · obtain ⟨ds, name2, h1, h2, h3, h4⟩ := ih2 r hr
      refine ⟨ds, name2, h1, h2, h3, fun hv => h4 ?_⟩
      simp [validEntries] at hv
      exact hv.2

theorem walkTree_mem (patterns base : List Str) (es : List FSEntry) :
    ∀ r ∈ walkTree patterns base es,
      ∃ ds name, r.path = pathStr (base ++ (ds ++ [name])) ∧ extAllowed name = true ∧
        (∀ q, q ≠ [] → q <+: ds ++ [name] → is_ignored patterns (base ++ q) = false) ∧
        (validEntries es = true → ∀ c ∈ ds ++ [name], '/' ∉ c) := by
  intro r hr
  rcases List.mem_append.mp hr with hr | hr
  · obtain ⟨name2, h1, h2, h3, h4⟩ := walkFiles_mem patterns base es r hr
    refine ⟨[], name2, by simpa using h1, h2, ?_, fun hv => ?_⟩
    · intro q hq hqp
      rw [singleton_pfx_eq q name2 hq (by simpa using hqp)]
      exact h3
    · intro c hc
      have hc2 : c = name2 := by simpa using hc
      rw [hc2]
      exact h4 hv
  · exact walkDirs_mem patterns base es r hr

/-! Pruning of unreadable files commutes with the walk. -/

theorem walkFiles_prune (patterns base : List Str) (es : List FSEntry) :
    walkFiles patterns base (pruneUnreadable es) = walkFiles patterns base es := by
  induction es using pruneUnreadable.induct with
  | case1 => simp [pruneUnreadable]
  | case2 n rest ih => simp [pruneUnreadable, walkFiles, ih]
  | case3 n c rest ih => simp [pruneUnreadable, walkFiles, ih]
  | case4 n ch rest ih_ch ih_rest => simp [pruneUnreadable, walkFiles, ih_rest]

theorem walkDirs_prune (patterns : List Str) (es : List FSEntry) :
    ∀ base, walkDirs patterns base (pruneUnreadable es) = walkDirs patterns base es := by
  induction es using pruneUnreadable.induct with
  | case1 => intro base; simp [pruneUnreadable]
  | case2 n rest ih => intro base; simp [pruneUnreadable, walkDirs, ih]
  | case3 n c rest ih => intro base; simp [pruneUnreadable, walkDirs, ih]
  | case4 n ch rest ih_ch ih_rest =>
    intro base
    simp [pruneUnreadable, walkDirs, walkFiles_prune, ih_ch, ih_rest]

/-- C8: the Tree Scanner never raises on a per-file failure: the walk is a
total function, a tree equals the same tree with every unreadable file
deleted as far as the scan is concerned (so an unreadable file yields no
FileRecord and leaves every other record unchanged), and an unreadable
file at the head of a listing is simply skipped. -/
theorem scanner_tolerates_unreadable :
    (∀ gitignore root,
        scan_codebase gitignore root = scan_codebase gitignore (pruneUnreadable root)) ∧
    (∀ patterns base name rest,
        walkFiles patterns base (.file name none :: rest) =
        walkFiles patterns base rest) := by
  constructor
  · intro gitignore root
    simp [scan_codebase, walkTree, walkFiles_prune, walkDirs_prune]
  · intro patterns base name rest
    simp [walkFiles]

/-- C1: a path whose final name component is in `EXCLUDED_FILES` is
excluded for every pattern set whatsoever (the sensitive-name rule is
consulted first and does not depend on the patterns). -/
theorem sensitive_name_always_ignored (patterns rp : List Str) (name : Str)
    (h : name ∈ EXCLUDED_FILES) : is_ignored patterns (rp ++ [name]) = true := by
  have hn : pathName (rp ++ [name]) = name := by
    simp [pathName, List.getLast?_concat]
  simp [is_ignored, hn, h]

theorem sensitive_name_always_ignored_witness :
    is_ignored [] ([] ++ [".env".data]) = true :=
  sensitive_name_always_ignored [] [] ".env".data (by decide)

/-- C3: the gitignore rule fires exactly when some pattern, trimmed of
path separators, is a substring of the relative path, or equals the final
name, or ends in a separator and starts the relative path; consequently a
`build/` rule excludes every path below `build/` and also the documented
over-exclusion `build-tools/readme.md`. -/
theorem gitignore_rule_characterisation :
    (∀ patterns path_str name, gitignoreHit patterns path_str name = true ↔
        ∃ p ∈ patterns,
          pyStripChar '/' p <:+: path_str ∨ name = pyStripChar '/' p ∨
          (['/'] <:+ pyStripChar '/' p ∧ pyStripChar '/' p <+: path_str)) ∧
    (∀ patterns rel, "build/".data ∈ patterns →
        "build/".data <+: pathStr rel → is_ignored patterns rel = true) ∧
    is_ignored ["build/".data] ["build-tools".data, "readme.md".data] = true := by
  refine ⟨?_, ?_, by decide⟩
  · intro patterns path_str name
    simp only [gitignoreHit, List.any_eq_true, Bool.or_eq_true, Bool.and_eq_true,
      isSubstr_contains_iff, isSuffixOf_iff_sfx, isPrefixOf_iff_pfx, beq_iff_eq, or_assoc]
  · intro patterns rel hmem hpfx
    obtain ⟨t, ht⟩ := hpfx
    have hpc : pyStripChar '/' "build/".data = "build".data := by decide
    have hinf : isSubstr "build".data (pathStr rel) = true := by
      apply (isSubstr_contains_iff _ _).mpr
      refine ⟨[], '/' :: t, ?_⟩
      rw [← ht]
      rfl
    have hhit : gitignoreHit patterns (pathStr rel) (pathName rel) = true := by
      apply List.any_eq_true.mpr
      refine ⟨"build/".data, hmem, ?_⟩
      simp only [hpc, hinf, Bool.true_or, Bool.or_eq_true]
    simp [is_ignored, hhit]

theorem gitignore_rule_characterisation_witness :
    is_ignored ["build/".data] ["build".data, "m.py".data] = true :=
  gitignore_rule_characterisation.2.1 ["build/".data]
    ["build".data, "m.py".data] (by decide) ⟨"m.py".data, by decide⟩

/-- C2: exclusion-filter soundness of the scan.  Under the physical
well-formedness of a directory tree (no name contains a separator): no
record lies below an ignored relative path, every record's own path
passes the filter, and the walk never depends on the children of a pruned
directory. -/
theorem pruned_subtrees_unscanned :
    (∀ gitignore root rp,
        validEntries root = true → (∀ c ∈ rp, '/' ∉ c) → rp ≠ [] →
        is_ignored (scanPatterns gitignore) rp = true →
        ∀ r ∈ scan_codebase gitignore root, ¬ (pathStr rp ++ ['/']) <+: r.path) ∧
    (∀ gitignore root r, r ∈ scan_codebase gitignore root →
        ∃ l, l ≠ [] ∧ r.path = pathStr l ∧
          is_ignored (scanPatterns gitignore) l = false) ∧
    (∀ patterns base name ch ch2 rest,
        is_ignored patterns (base ++ [name]) = true →
        walkDirs patterns base (.dir name ch :: rest) =
        walkDirs patterns base (.dir name ch2 :: rest)) := by
  refine ⟨?_, ?_, ?_⟩
  · intro gitignore root rp hvalid hrp hrpne hig r hr hpp
    obtain ⟨ds, name, h1, h2, h3, h4⟩ :=
      walkTree_mem (scanPatterns gitignore) [] root r hr
    have h1x : r.path = pathStr (ds ++ [name]) := by simpa using h1
    have h4x : ∀ c ∈ ds ++ [name], '/' ∉ c := h4 hvalid
    have hsub : rp <+: ds ++ [name] :=
      pathStr_boundary_to_comps rp (ds ++ [name]) hrp h4x (h1x ▸ hpp)
    have := h3 rp hrpne hsub
    simp at this
    rw [this] at hig
    exact Bool.false_ne_true hig
  · intro gitignore root r hr
    obtain ⟨ds, name, h1, h2, h3, h4⟩ :=
      walkTree_mem (scanPatterns gitignore) [] root r hr
    refine ⟨ds ++ [name], by simp, by simpa using h1, ?_⟩
    have := h3 (ds ++ [name]) (by simp) ⟨[], by simp⟩
    simpa using this
  · intro patterns base name ch ch2 rest hig
    simp [walkDirs, hig]

theorem pruned_subtrees_unscanned_witness :
    ∀ r ∈ scan_codebase none
        [.dir "build".data [.file "x.py".data (some "hi".data)],
         .file "a.py".data (some "ok".data)],
      ¬ (pathStr ["build".data] ++ ['/']) <+: r.path :=
  pruned_subtrees_unscanned.1 none
    [.dir "build".data [.file "x.py".data (some "hi".data)],
     .file "a.py".data (some "ok".data)]
    ["build".data] (by decide) (by decide) (by decide) (by decide)

/-- C4: a file whose lower-cased extension is outside the allowlist and
whose lower-cased bare name is not a recognised extensionless name
contributes nothing to the scan: such a file is dropped by the scanner
loop, and every record that is produced carries a name passing the
allowlist test. -/
theorem ext_allowlist_filter :
    (∀ patterns base name content rest, extAllowed name = false →
        walkFiles patterns base (.file name content :: rest) =
        walkFiles patterns base rest) ∧
    (∀ gitignore root r, r ∈ scan_codebase gitignore root →
        ∃ l name, r.path = pathStr (l ++ [name]) ∧ extAllowed name = true) := by
  constructor
  · intro patterns base name content rest h
    simp [walkFiles, h]
  · intro gitignore root r hr
    obtain ⟨ds, name, h1, h2, h3, h4⟩ :=
      walkTree_mem (scanPatterns gitignore) [] root r hr
    exact ⟨ds, name, by simpa using h1, h2⟩

theorem ext_allowlist_filter_witness :
    walkFiles [] [] [.file "x.bin".data (some "z".data)] = walkFiles [] [] [] :=
  ext_allowlist_filter.1 [] [] "x.bin".data (some "z".data) [] (by decide)

/-! Generation fallback reasoning. -/

theorem genAttempts_trace (oracle : Str → Except Str Str) (ms : List Str) :
    ∀ last, (genAttempts oracle ms last).1 <+: ms := by
  induction ms with
  | nil => intro last; simp [genAttempts]
  | cons m rest ih =>
    intro last
    simp only [genAttempts]
    cases ho : oracle m with
    | ok t =>
      by_cases ht : t.isEmpty
      · simp only [ht, if_true]
        exact List.cons_prefix_cons.mpr ⟨rfl, ih last⟩
      · simp only [ht, if_false]
        exact List.cons_prefix_cons.mpr ⟨rfl, List.nil_prefix⟩
    | error e => exact List.cons_prefix_cons.mpr ⟨rfl, ih (some e)⟩

theorem genAttempts_all_fail (oracle : Str → Except Str Str) (ms : List Str) :
    ∀ last, (∀ m ∈ ms, oracle m = .ok [] ∨ ∃ e, oracle m = .error e) →
    genAttempts oracle ms last = (ms, .error (lastErr oracle ms last)) := by
  induction ms with
  | nil => intro last h; rfl
  | cons m rest ih =>
    intro last h
    rcases h m (List.mem_cons_self m rest) with hm | ⟨e, hm⟩
    · have h2 := ih last (fun x hx => h x (List.mem_cons_of_mem m hx))
      simp [genAttempts, lastErr, hm, h2]
    · have h2 := ih (some e) (fun x hx => h x (List.mem_cons_of_mem m hx))
      simp [genAttempts, lastErr, hm, h2]

theorem genAttempts_ok_iff (oracle : Str → Except Str Str) (ms : List Str) :
    ∀ last, (∃ v, (genAttempts oracle ms last).2 = .ok v) ↔
      (∃ m ∈ ms, ∃ t, oracle m = .ok t ∧ t ≠ []) := by
  induction ms with
  | nil => intro last; simp [genAttempts]
  | cons m rest ih =>
    intro last
    cases ho : oracle m with
    | ok t =>
      by_cases ht : t = []
      · subst ht
        simp only [genAttempts, ho, List.isEmpty_nil, if_true]
        rw [ih last]
        constructor
        · rintro ⟨m2, hm2, t2, ht2, hne⟩
          exact ⟨m2, List.mem_cons_of_mem m hm2, t2, ht2, hne⟩
        · rintro ⟨m2, hm2, t2, ht2, hne⟩
          rcases List.mem_cons.mp hm2 with hm2 | hm2
          · subst hm2
            rw [ho] at ht2
            cases ht2
            exact absurd rfl hne
          · exact ⟨m2, hm2, t2, ht2, hne⟩
      · have ht2 : t.isEmpty = false := by
          simpa [List.isEmpty_iff] using ht
        simp only [genAttempts, ho, ht2, if_false]
        constructor
        · intro _
          exact ⟨m, List.mem_cons_self m rest, t, ho, ht⟩
        · intro _
          exact ⟨pyStrip t, rfl⟩
    | error e =>
      simp only [genAttempts, ho]
      rw [ih (some e)]
      constructor
      · rintro ⟨m2, hm2, t2, ht2, hne⟩
        exact ⟨m2, List.mem_cons_of_mem m hm2, t2, ht2, hne⟩
      · rintro ⟨m2, hm2, t2, ht2, hne⟩
        rcases List.mem_cons.mp hm2 with hm2 | hm2
        · subst hm2
          rw [ho] at ht2
          cases ht2
        · exact ⟨m2, hm2, t2, ht2, hne⟩

/-- C5 (amended): the candidate list is the explicit model alone when one
is supplied, else the primary/fallback pair in that order; the models
actually requested always form an initial segment of the candidate list
(so each candidate is asked at most once, in order, and the loop stops at
the first success); and when the primary raises while the fallback
returns non-empty text, exactly the two requests are sent in order and
the result is the fallback's response stripped of surrounding
whitespace. -/
theorem fallback_order_and_result :
    (∀ m, m ≠ [] → modelsToTry (some m) = [m]) ∧
    modelsToTry none = [PRIMARY_MODEL, FALLBACK_MODEL] ∧
    (∀ oracle mn, (generate_documentation oracle mn).1 <+: modelsToTry mn) ∧
    (∀ oracle e t, oracle PRIMARY_MODEL = .error e → oracle FALLBACK_MODEL = .ok t →
        t ≠ [] →
        generate_documentation oracle none =
          ([PRIMARY_MODEL, FALLBACK_MODEL], .ok (pyStrip t))) := by
  refine ⟨?_, rfl, ?_, ?_⟩
  · intro m hm
    simp [modelsToTry, List.isEmpty_iff, hm]
  · intro oracle mn
    exact genAttempts_trace oracle (modelsToTry mn) none
  · intro oracle e t hA hB ht
    have ht2 : t.isEmpty = false := by simpa [List.isEmpty_iff] using ht
    simp [generate_documentation, modelsToTry, genAttempts, hA, hB, ht2]

theorem fallback_order_and_result_witness :
    generate_documentation oracleStripDemo none
      = ([PRIMARY_MODEL, FALLBACK_MODEL], .ok (pyStrip " hi ".data)) :=
  fallback_order_and_result.2.2.2 oracleStripDemo "boom".data " hi ".data
    rfl rfl (by decide)

theorem fallback_strip_cex :
    generate_documentation oracleStripDemo none
        = ([PRIMARY_MODEL, FALLBACK_MODEL], .ok "hi".data) ∧
    oracleStripDemo FALLBACK_MODEL = .ok " hi ".data ∧
    (" hi ".data : Str) ≠ "hi".data :=
  ⟨rfl, rfl, by decide⟩

/-- C7: when every candidate raises or returns empty text the orchestrator
requests each candidate once, then fails fatally carrying the last
captured exception (modelled as the `.error` outcome of the
`sys.exit(1)` branch, on which no document is produced); and the run
succeeds exactly when some candidate answers non-empty text. -/
theorem generation_exhaustion_fatal :
    (∀ oracle mn,
        (∀ m ∈ modelsToTry mn, oracle m = .ok [] ∨ ∃ e, oracle m = .error e) →
        generate_documentation oracle mn =
          (modelsToTry mn, .error (lastErr oracle (modelsToTry mn) none))) ∧
    (∀ oracle mn,
        (∃ v, (generate_documentation oracle mn).2 = .ok v) ↔
        (∃ m ∈ modelsToTry mn, ∃ t, oracle m = .ok t ∧ t ≠ [])) := by
  constructor
  · intro oracle mn h
    exact genAttempts_all_fail oracle (modelsToTry mn) none h
  · intro oracle mn
    exact genAttempts_ok_iff oracle (modelsToTry mn) none

theorem generation_exhaustion_fatal_witness :
    generate_documentation (fun _ => .error "e".data) none =
      (modelsToTry none,
        .error (lastErr (fun _ => .error "e".data) (modelsToTry none) none)) :=
  generation_exhaustion_fatal.1 (fun _ => .error "e".data) none
    (fun _ _ => Or.inr ⟨"e".data, rfl⟩)

/-! Credential resolution reasoning. -/

theorem loadLoop_take (f : Nat) : ∀ chain, loadLoop f chain = loadLoop f (chain.take f) := by
  induction f with
  | zero => intro chain; rfl
  | succ g ih =>
    intro chain
    cases chain with
    | nil => rfl
    | cons c rest =>
      simp only [List.take_succ_cons, loadLoop]
      cases hc : c.bind (fun content => scanEnvLines (pySplitlines content)) with
      | some k => rfl
      | none =>
        cases rest with
        | nil => simp
        | cons r rs =>
          cases hg : g with
          | zero => simp [loadLoop]
          | succ g2 =>
            rw [← hg]
            have := ih (r :: rs)
            simp only [List.isEmpty_cons, if_false, Bool.false_eq_true]
            rw [this]
            have hne : ((r :: rs).take g).isEmpty = false := by
              rw [hg]
              simp
            simp [hne]

/-- C9: the Credential Resolver checks the process environment first; the
file search never looks past the script's directory and five ancestors
(the six iterations of the loop); the search stops at the first file that
yields a value and, inside a file, the first line the key regex accepts
decides; and every run either returns a non-empty key or exits with the
fatal configuration error. -/
theorem api_key_resolution :
    (∀ v chain, v ≠ [] → get_api_key (some v) chain = .ok v) ∧
    (∀ chain, load_env_file chain = load_env_file (chain.take 6)) ∧
    (∀ content rest k, scanEnvLines (pySplitlines content) = some k →
        load_env_file (some content :: rest) = some k) ∧
    (∀ line rest k, pyStrip line ≠ [] → ¬ ['#'] <+: pyStrip line →
        matchKeyLine (pyStrip line) = some (some k) →
        scanEnvLines (line :: rest) = some k) ∧
    (∀ env chain, (∃ v, get_api_key env chain = .ok v ∧ v ≠ []) ∨
        get_api_key env chain = .error ()) := by
  refine ⟨?_, ?_, ?_, ?_, ?_⟩
  · intro v chain hv
    have hT : envTruthy (some v) = true := by
      simp [envTruthy, List.isEmpty_iff, hv]
    have hE : v.isEmpty = false := by
      simpa [List.isEmpty_iff] using hv
    simp [get_api_key, hT, hE]
  · intro chain
    exact loadLoop_take 6 chain
  · intro content rest k h
    simp [load_env_file, loadLoop, h]
  · intro line rest k h1 h2 h3
    have hE : (pyStrip line).isEmpty = false := by
      simpa [List.isEmpty_iff] using h1
    have hH : List.isPrefixOf ['#'] (pyStrip line) = false := by
      rw [← Bool.not_eq_true]
      intro hx
      exact h2 ((isPrefixOf_iff_pfx _ _).mp hx)
    simp [scanEnvLines, hE, hH, h3]
  · intro env chain
    simp only [get_api_key]
    split
    · rename_i k heq
      by_cases hk : k.isEmpty
      · simp [hk]
      · exact Or.inl ⟨k, by simp [hk], by simpa [List.isEmpty_iff] using hk⟩
    · exact Or.inr rfl

theorem api_key_resolution_witness :
    get_api_key (some "k".data) [] = .ok "k".data :=
  api_key_resolution.1 "k".data [] (by decide)

/-- C10: the wildcard pattern constant is dead code: a file named
`api_key.txt`, which matches the `*_key.txt` wildcard, is nevertheless
scanned in full because its `.txt` extension is allowed and no ignore
pattern matches it; a `.key` file is dropped, but only because its
extension fails the allowlist. -/
theorem wildcard_patterns_unused :
    (∀ c : Str, scan_codebase none [.file "api_key.txt".data (some c)]
        = [⟨"api_key.txt".data, c⟩]) ∧
    ("*_key.txt".data ∈ EXCLUDED_PATTERNS ∧ "_key.txt".data <:+ "api_key.txt".data) ∧
    (∀ c : Str, scan_codebase none [.file "server.key".data (some c)] = []) := by
  refine ⟨?_, ⟨by decide, ⟨"api".data, by decide⟩⟩, ?_⟩
  · intro c
    have h1 : is_ignored (scanPatterns none) ["api_key.txt".data] = false := by
      decide
    have h2 : extAllowed "api_key.txt".data = true := by decide
    simp [scan_codebase, walkTree, walkFiles, walkDirs, h1, h2, pathStr, pyJoin]
  · intro c
    have h2 : extAllowed "server.key".data = false := by decide
    simp [scan_codebase, walkTree, walkFiles, walkDirs, h2]

/-! Context assembly reasoning. -/

theorem bc_nil : build_context [] = [] := rfl

theorem bc_cons (r : FileRecord) (t : List FileRecord) :
    build_context (r :: t) =
      (FILE_MARK ++ r.path ++ " ---".data) ++ '\n' :: (r.content ++ '\n' :: bcE t) := by
  cases t with
  | nil => simp [build_context, pyJoin, filePart, bcE]
  | cons s t2 => simp [build_context, pyJoin, filePart, bcE]

theorem bcE_form (t : List FileRecord) :
    bcE t = [] ∨ ∃ R : Str, bcE t = '\n' :: (FILE_MARK ++ R) ∧ R ≠ [] := by
  cases t with
  | nil => exact Or.inl rfl
  | cons r t2 =>
    refine Or.inr ⟨r.path ++ " ---".data ++ '\n' :: (r.content ++ '\n' :: bcE t2),
      ?_, by simp⟩
    simp [bcE, bc_cons]

theorem nl_boundary_cancel (a : Str) : ∀ b u v : Str, '\n' ∉ a → '\n' ∉ b →
    a ++ '\n' :: u = b ++ '\n' :: v → a = b ∧ u = v := by
  induction a with
  | nil =>
    intro b u v _ hb h
    cases b with
    | nil => simpa using h
    | cons c b2 =>
      simp only [List.nil_append, List.cons_append, List.cons.injEq] at h
      have : '\n' ∈ c :: b2 := by
        rw [h.1]
        exact List.mem_cons_self c b2
      exact absurd this hb
  | cons c a2 ih =>
    intro b u v ha hb h
    cases b with
    | nil =>
      simp only [List.cons_append, List.nil_append, List.cons.injEq] at h
      have : '\n' ∈ c :: a2 := by
        rw [← h.1]
        exact List.mem_cons_self c a2
      exact absurd this ha
    | cons c2 b2 =>
      simp only [List.cons_append, List.cons.injEq] at h
      obtain ⟨h1, h2⟩ := h
      have ha2 : '\n' ∉ a2 := fun hm => ha (List.mem_cons_of_mem c hm)
      have hb2 : '\n' ∉ b2 := fun hm => hb (List.mem_cons_of_mem c2 hm)
      obtain ⟨hab, huv⟩ := ih b2 u v ha2 hb2 h2
      exact ⟨by rw [h1, hab], huv⟩

theorem content_boundary_aux (c1 c2 a2 X1 X2 : Str)
    (hc2 : isSubstr contextSep c2 = false)
    (hX1 : X1 = [] ∨ ∃ R : Str, X1 = '\n' :: (FILE_MARK ++ R) ∧ R ≠ [])
    (hX2 : X2 = [] ∨ ∃ R : Str, X2 = '\n' :: (FILE_MARK ++ R) ∧ R ≠ [])
    (hsplit : c2 = c1 ++ a2)
    (heq : ('\n' :: X1 : Str) = a2 ++ '\n' :: X2) : a2 = [] := by
  cases a2 with
  | nil => rfl
  | cons x a3 =>
    exfalso
    simp only [List.cons_append, List.cons.injEq] at heq
    obtain ⟨hx, hX1eq⟩ := heq
    subst hx
    rcases hX1 with hX1 | ⟨R1, hX1, hR1⟩
    · rw [hX1] at hX1eq
      exact absurd hX1eq.symm (by simp)
    · rw [hX1] at hX1eq
      cases a3 with
      | nil =>
        simp only [List.nil_append, List.cons.injEq] at hX1eq
        rcases hX2 with hX2 | ⟨R2, hX2, _⟩
        · rw [hX2] at hX1eq
          exact absurd hX1eq.2.symm (by simp [FILE_MARK])
        · rw [hX2] at hX1eq
          have := hX1eq.2
          rw [show FILE_MARK = '-' :: "-- FILE: ".data from rfl] at this
          simp only [List.cons_append, List.cons.injEq] at this
          exact absurd this.1 (by decide)
      | cons y a4 =>
        simp only [List.cons_append, List.cons.injEq] at hX1eq
        obtain ⟨hy, hmid⟩ := hX1eq
        subst hy
        rcases List.append_eq_append_iff.mp hmid.symm with ⟨w, hw1, hw2⟩ | ⟨w, hw1, hw2⟩
        · -- FILE_MARK = a4 ++ w and '\n' :: X2 = w ++ R1
          cases w with
          | nil =>
            -- a4 = FILE_MARK, so c2 contains the separator marker
            have hsub : isSubstr contextSep c2 = true := by
              apply (isSubstr_contains_iff _ _).mpr
              refine ⟨c1 ++ ['\n'], [], ?_⟩
              simp only [List.append_nil] at hw1 ⊢
              rw [hsplit, ← hw1]
              simp [contextSep]
            rw [hsub] at hc2
            simp at hc2
          | cons z w2 =>
            have hz : z ∈ FILE_MARK := by
              rw [hw1]
              exact List.mem_append_right a4 (List.mem_cons_self z w2)
            simp only [List.cons_append, List.cons.injEq] at hw2
            rw [← hw2.1] at hz
            exact absurd hz (by decide)
        · -- a4 = FILE_MARK ++ w, so c2 contains the separator marker
          have hsub : isSubstr contextSep c2 = true := by
            apply (isSubstr_contains_iff _ _).mpr
            refine ⟨c1 ++ ['\n'], w, ?_⟩
            rw [hsplit, hw1]
            simp [contextSep]
          rw [hsub] at hc2
          simp at hc2

theorem content_tail_cancel (c1 c2 X1 X2 : Str)
    (hc1 : isSubstr contextSep c1 = false) (hc2 : isSubstr contextSep c2 = false)
    (hX1 : X1 = [] ∨ ∃ R : Str, X1 = '\n' :: (FILE_MARK ++ R) ∧ R ≠ [])
    (hX2 : X2 = [] ∨ ∃ R : Str, X2 = '\n' :: (FILE_MARK ++ R) ∧ R ≠ [])
    (heq : c1 ++ '\n' :: X1 = c2 ++ '\n' :: X2) : c1 = c2 ∧ X1 = X2 := by
  rcases List.append_eq_append_iff.mp heq with ⟨a2, h1, h2⟩ | ⟨a2, h1, h2⟩
  · have ha2 : a2 = [] := content_boundary_aux c1 c2 a2 X1 X2 hc2 hX1 hX2 h1 h2
    subst ha2
    simp only [List.append_nil] at h1
    simp only [List.nil_append, List.cons.injEq] at h2
    exact ⟨h1.symm, h2.2⟩
  · have ha2 : a2 = [] := content_boundary_aux c2 c1 a2 X2 X1 hc1 hX2 hX1 h1 h2
    subst ha2
    simp only [List.append_nil] at h1
    simp only [List.nil_append, List.cons.injEq] at h2
    exact ⟨h1, h2.2.symm⟩

/-- C6 (amended): context assembly is order-preserving and injective on
scan results whose paths carry no newline and whose contents never
contain a newline followed by the delimiter opening `--- FILE: `; on such
inputs the blob determines the original path/content sequence exactly.
Without that proviso recovery fails (see the collision theorem). -/
theorem context_assembly_lossless (l1 : List FileRecord) :
    ∀ l2, (∀ r ∈ l1, okRecord r = true) → (∀ r ∈ l2, okRecord r = true) →
    build_context l1 = build_context l2 → l1 = l2 := by
  induction l1 with
  | nil =>
    intro l2 _ _ h
    cases l2 with
    | nil => rfl
    | cons r2 t2 =>
      rw [bc_nil, bc_cons] at h
      exact absurd h.symm (by simp)
  | cons r1 t1 ih =>
    intro l2 h1 h2 h
    cases l2 with
    | nil =>
      rw [bc_cons, bc_nil] at h
      exact absurd h (by simp)
    | cons r2 t2 =>
      rw [bc_cons, bc_cons] at h
      have hok1 := h1 r1 (List.mem_cons_self r1 t1)
      have hok2 := h2 r2 (List.mem_cons_self r2 t2)
      simp only [okRecord, Bool.and_eq_true, Bool.not_eq_true',
        decide_eq_false_iff_not] at hok1 hok2
      obtain ⟨hp1, hc1⟩ := hok1
      obtain ⟨hp2, hc2⟩ := hok2
      have hnl : ∀ p : Str, '\n' ∉ p → '\n' ∉ FILE_MARK ++ p ++ " ---".data := by
        intro p hp hm
        rcases List.mem_append.mp hm with hm | hm
        · rcases List.mem_append.mp hm with hm | hm
          · exact absurd hm (by decide)
          · exact hp hm
        · exact absurd hm (by decide)
      obtain ⟨hA, hU⟩ := nl_boundary_cancel _ _ _ _ (hnl _ hp1) (hnl _ hp2) h
      have hpath : r1.path = r2.path := by
        have h3 : FILE_MARK ++ (r1.path ++ " ---".data) =
            FILE_MARK ++ (r2.path ++ " ---".data) := by
          simpa [List.append_assoc] using hA
        exact List.append_cancel_right (List.append_cancel_left h3)
      obtain ⟨hcont, hX⟩ := content_tail_cancel _ _ _ _ hc1 hc2
        (bcE_form t1) (bcE_form t2) hU
      have hrec : r1 = r2 := by
        cases r1
        cases r2
        simp only at hpath hcont
        rw [hpath, hcont]
      have htail : t1 = t2 := by
        cases t1 with
        | nil =>
          cases t2 with
          | nil => rfl
          | cons s2 u2 =>
            simp only [bcE, List.isEmpty_nil, List.isEmpty_cons, if_true, if_false] at hX
            exact absurd hX (by simp)
        | cons s1 u1 =>
          cases t2 with
          | nil =>
            simp only [bcE, List.isEmpty_nil, List.isEmpty_cons, if_true, if_false] at hX
            exact absurd hX (by simp)
          | cons s2 u2 =>
            simp only [bcE, List.isEmpty_cons, if_false] at hX
            have hbc : build_context (s1 :: u1) = build_context (s2 :: u2) := by
              simpa using hX
            exact ih (s2 :: u2)
              (fun r hr => h1 r (List.mem_cons_of_mem r1 hr))
              (fun r hr => h2 r (List.mem_cons_of_mem r2 hr)) hbc
      rw [hrec, htail]

theorem context_assembly_lossless_witness :
    ([⟨"a".data, "x".data⟩] : List FileRecord) = [⟨"a".data, "x".data⟩] :=
  context_assembly_lossless [⟨"a".data, "x".data⟩] [⟨"a".data, "x".data⟩]
    (by decide) (by decide) rfl

/-- C6 counterexample: two different ScanResults assemble to the very same
context blob, so no splitting procedure can recover the original sequence
of path/content pairs from the blob for every ScanResult. -/
theorem context_assembly_collision :
    build_context [⟨"a".data, "x\n\n--- FILE: b ---\ny".data⟩]
      = build_context [⟨"a".data, "x".data⟩, ⟨"b".data, "y".data⟩] ∧
    ([⟨"a".data, "x\n\n--- FILE: b ---\ny".data⟩] : List FileRecord)
      ≠ [⟨"a".data, "x".data⟩, ⟨"b".data, "y".data⟩] := by
  constructor
  · decide
  · decide
